import Mathlib

set_option linter.unusedSectionVars false

/-!
# Verification of the HPTT tensor-transposition interface

The repository exposes a C interface (`src/include/chptt.h`) for
high-performance out-of-place tensor transposition
`B[perm(i)] = alpha * A[i] + beta * B[perm(i)]`.

Only the interface header is part of the repository's sources; the planner and
executor behind it are specified by the design document.  We therefore model
the execution engine from the specification (every such definition is marked
`Modelled from the spec:`), embed the header's declarations as data, and prove
the specification's claims about both.

Buffers are flat stores `Nat → α` indexed by linear offsets, as the C
interface's raw pointers are.  `α` is the numeric element type (spec §3:
single/double real or complex); we work over an arbitrary commutative ring
with decidable equality, with an abstract conjugation map for the complex
entry points.
-/

namespace HPTT

/-! ## Definitions: strides, offsets, permutations, enumeration -/

/-- Modelled from the spec: `stride[i] = product(outerSize[0..i))`, the
column-major strides derived from the outer sizes of a tensor
(spec §3, ShapeDescriptor). -/
def strides : List Nat → List Nat
  | [] => []
  | o :: os => 1 :: (strides os).map (o * ·)

/-- Modelled from the spec: the linear offset of a multi-index inside a buffer
whose per-axis strides are given: the sum of `idx[k] * stride[k]`. -/
def offset (idx st : List Nat) : Nat :=
  (List.zipWith (· * ·) idx st).sum

/-- Linear offset of a multi-index in a buffer with the given outer sizes. -/
def offsetIn (idx outer : List Nat) : Nat :=
  offset idx (strides outer)

/-- The multi-index recovered from a linear offset by repeated div/mod
(used to show the addressing map is surjective onto the dense buffer). -/
def decompose (o : Nat) : List Nat → List Nat
  | [] => []
  | n :: ns => (o % n) :: decompose (o / n) ns

/-- Modelled from the spec: `perm[k]` identifies which input axis maps to
output axis k (spec §3; header doc: `perm[] = \x7b1,0,2\x7d` denotes
`B_(i1,i0,i2) <- A_(i0,i1,i2)`), so the output index at axis `k` is
`idx[perm[k]]`. -/
def applyPerm (perm idx : List Nat) : List Nat :=
  perm.map fun p => idx.getD p 0

/-- Modelled from the spec: a permutation of rank `dim` is a sequence of
length `dim` that is a bijection on `\x7b0..dim-1\x7d` (spec §3, §4.1). -/
def ValidPerm (perm : List Nat) (dim : Nat) : Prop :=
  perm.length = dim ∧ perm.Nodup ∧ ∀ p ∈ perm, p < dim

instance (perm : List Nat) (dim : Nat) : Decidable (ValidPerm perm dim) := by
  unfold ValidPerm
  infer_instance

/-- Enumeration of the indices whose leading (outermost-loop) coordinate
ranges over `[lo, lo+len)` and whose remaining coordinates range over
`tails`; this is also the shape of one thread's contiguous sub-range. -/
def seg (tails : List (List Nat)) : Nat → Nat → List (List Nat)
  | _, 0 => []
  | lo, len + 1 => tails.map (lo :: ·) ++ seg tails (lo + 1) len

/-- Modelled from the spec: the loop nest enumerating every multi-index of
the logical region `[0,sizes[0]) x ... x [0,sizes[dim-1])` (spec §4.3, the
blocked traversal visits every element of the logical sub-tensor). -/
def allIdx : List Nat → List (List Nat)
  | [] => [[]]
  | n :: ns => seg (allIdx ns) 0 n

/-! ## Definitions: the executor -/

/-- The arguments of one transposition call, named after the parameters of
`sTensorTranspose` and friends in `src/include/chptt.h`. -/
structure Config (α : Type) where
  perm : List Nat
  alpha : α
  beta : α
  conjA : Bool
  conj : α → α
  A : Nat → α
  outerSizeA : List Nat
  outerSizeB : List Nat

variable {α : Type} [CommRing α] [DecidableEq α]

/-- Modelled from the spec: the per-element update
`B = alpha*A + beta*B`, where `beta == 0` must not read the pre-existing
contents of B (spec §4.3, numeric semantics). -/
def axpby (alpha beta a b : α) : α :=
  if beta = 0 then alpha * a else alpha * a + beta * b

/-- Conjugation of the input element when the `conjA` flag is set. -/
def conjIf (conjA : Bool) (conj : α → α) (a : α) : α :=
  if conjA then conj a else a

/-- The input element read for the multi-index `idx` (with conjugation). -/
def aval (cfg : Config α) (idx : List Nat) : α :=
  conjIf cfg.conjA cfg.conj (cfg.A (offsetIn idx cfg.outerSizeA))

/-- The destination offset for the multi-index `idx`: the permuted index
addressed with B's outer-size strides. -/
def offB (cfg : Config α) (idx : List Nat) : Nat :=
  offsetIn (applyPerm cfg.perm idx) cfg.outerSizeB

/-- One element update of the destination buffer. -/
def writeIdx (cfg : Config α) (buf : Nat → α) (idx : List Nat) : Nat → α :=
  fun o =>
    if o = offB cfg idx then
      axpby cfg.alpha cfg.beta (aval cfg idx) (buf (offB cfg idx))
    else buf o

/-- Modelled from the spec: the executor's traversal runs the element update
over an enumeration of the logical index region (spec §4.3). -/
def execOn (cfg : Config α) (idxs : List (List Nat)) (buf : Nat → α) :
    Nat → α :=
  idxs.foldl (writeIdx cfg) buf

/-- Modelled from the spec: single-threaded execution visits every index of
the logical region exactly once (spec §4.3). -/
def run (cfg : Config α) (sizeA : List Nat) (buf : Nat → α) : Nat → α :=
  execOn cfg (allIdx sizeA) buf

/-- Modelled from the spec: the preconditions of a valid call (spec §3, §4.1):
the permutation is a bijection on the axes, and each buffer's outer sizes
dominate its logical sizes (B's logical sizes being the permuted sizes of
A). -/
structure ValidCall (cfg : Config α) (sizeA : List Nat) : Prop where
  perm_valid : ValidPerm cfg.perm sizeA.length
  outerA_ge : List.Forall₂ (· ≤ ·) sizeA cfg.outerSizeA
  outerB_ge : List.Forall₂ (· ≤ ·) (applyPerm cfg.perm sizeA) cfg.outerSizeB

/-! ## Definitions: thread partitioning

The parallelization strategy splits the outermost loop axis into `T`
contiguous, non-overlapping sub-ranges; each worker thread executes the
element updates of its own sub-range. -/

/-- Ceiling division, the per-thread sub-range length `ceil(extent/T)`. -/
def ceilDiv (n T : Nat) : Nat := (n + T - 1) / T

/-- Modelled from the spec: the sub-range of thread `t` on the split axis is
`[t*c, min((t+1)*c, n))` with `c = ceil(n/T)`: size `c` for all but the last
sub-range, which receives the (possibly empty) remainder (spec §4.4). -/
def chunkSeg (tails : List (List Nat)) (c n t : Nat) : List (List Nat) :=
  seg tails (min (t * c) n) (min ((t + 1) * c) n - min (t * c) n)

/-- The sub-ranges of threads `0, ..., T-1`, in thread order. -/
def chunksUpTo (tails : List (List Nat)) (c n : Nat) : Nat → List (List (List Nat))
  | 0 => []
  | t + 1 => chunksUpTo tails c n t ++ [chunkSeg tails c n t]

/-- Modelled from the spec: the work distribution for `T` threads — the
outermost axis is partitioned into `T` contiguous sub-ranges (spec §4.4,
§5); a rank-0 tensor has a single scalar task. -/
def threadChunks (sizeA : List Nat) (T : Nat) : List (List (List Nat)) :=
  match sizeA with
  | [] => [allIdx []]
  | n :: ns => chunksUpTo (allIdx ns) (ceilDiv n T) n T

/-- Concatenation of the per-thread index lists. -/
def catIdx : List (List (List Nat)) → List (List Nat)
  | [] => []
  | l :: ls => l ++ catIdx ls

/-- Modelled from the spec: multi-threaded execution — every thread applies
the element updates of its own sub-range; disjointness of the sub-ranges
makes the outcome independent of interleaving (spec §5), which lets the
fork-join execution be modelled as running a sequence of per-thread work
lists (in any completion order). -/
def execChunks (cfg : Config α) (ls : List (List (List Nat)))
    (buf : Nat → α) : Nat → α :=
  ls.foldl (fun b l => execOn cfg l b) buf

/-- Modelled from the spec: the multi-threaded execution with `T` threads
(spec §5, fork-join over the partitioned outer axis). -/
def runThreads (cfg : Config α) (sizeA : List Nat) (T : Nat)
    (buf : Nat → α) : Nat → α :=
  execChunks cfg (threadChunks sizeA T) buf

/-! ## Definitions: validation and the public entry point -/

/-- The error taxonomy of the specification (spec §7). -/
inductive TTError where
  | invalidShape
  | invalidPermutation
deriving DecidableEq

/-- Modelled from the spec: an immutable description of a tensor's
per-dimension logical size and per-dimension outer size (spec §3),
recorded after validation. -/
structure ShapeDescriptor where
  size : List Nat
  outerSize : List Nat
deriving DecidableEq

/-- All entries of the C `int` array are positive. -/
def allPos (l : List Int) : Bool :=
  l.all fun s => decide (0 < s)

/-- `size[i] ≤ outerSize[i]` for every axis (and the arrays have the same
length). -/
def leqPointwise : List Int → List Int → Bool
  | [], [] => true
  | a :: as, b :: bs => decide (a ≤ b) && leqPointwise as bs
  | _, _ => false

/-- Modelled from the spec: constructing a ShapeDescriptor fails with
`InvalidShape` if any size or outer size is non-positive or if
`outerSize[i] < size[i]` (spec §4.1, §7). -/
def ShapeDescriptor.make (size outerSize : List Int) :
    Except TTError ShapeDescriptor :=
  if allPos size && allPos outerSize && leqPointwise size outerSize then
    .ok ⟨size.map Int.toNat, outerSize.map Int.toNat⟩
  else .error .invalidShape

/-- A validated permutation. -/
structure Permutation where
  perm : List Nat
deriving DecidableEq

/-- Modelled from the spec: constructing a Permutation fails with
`InvalidPermutation` if the sequence length differs from the rank or it is
not a bijection on `\x7b0..rank-1\x7d` — wrong length, repeated index, or
out-of-range index (spec §4.1, §7). -/
def Permutation.make (dim : Nat) (perm : List Int) :
    Except TTError Permutation :=
  if perm.length = dim ∧ perm.Nodup ∧ ∀ p ∈ perm, 0 ≤ p ∧ p < (dim : Int) then
    .ok ⟨perm.map Int.toNat⟩
  else .error .invalidPermutation

/-- The permuted logical sizes of the output tensor: `perm(sizeA)` on the raw
C arrays (header doc lines 57-58: a `NULL` `outerSizeB` means the outer size
equals `perm(sizeA)`). -/
def applyPermInt (perm sizeA : List Int) : List Int :=
  perm.map fun q => sizeA.getD q.toNat 0

/-- Modelled from the spec: the row-major layout flag is a pure relabeling of
the permutation and size arrays before planning (spec §6): axes are listed
in reverse order, so axis `p` becomes `dim-1-p` and the sequence is
reversed. -/
def relabelPerm (dim : Nat) (perm : List Nat) : List Nat :=
  perm.reverse.map fun p => dim - 1 - p

/-- Modelled from the spec: a public tensor-transpose entry point
(spec §6; header `sTensorTranspose` and friends, with the numeric type
abstracted): it validates the input shape, the permutation and the output
shape at plan-construction time, and only then runs the multi-threaded
executor; on a validation failure it reports the error synchronously and
leaves the destination buffer untouched.  B's logical sizes are always the
permuted sizes of A; a missing (`NULL`) outer-size argument defaults to the
corresponding logical sizes. -/
def tensorTranspose (perm : List Int) (dim : Nat) (alpha : α) (conjA : Bool)
    (conj : α → α) (A : Nat → α) (sizeA : List Int)
    (outerSizeA : Option (List Int)) (beta : α) (B : Nat → α)
    (outerSizeB : Option (List Int)) (numThreads : Nat)
    (useRowMajor : Bool) : Except TTError Unit × (Nat → α) :=
  match ShapeDescriptor.make sizeA (outerSizeA.getD sizeA) with
  | .error e => (.error e, B)
  | .ok shpA =>
    match Permutation.make dim perm with
    | .error e => (.error e, B)
    | .ok p =>
      match ShapeDescriptor.make (applyPermInt perm sizeA)
          (outerSizeB.getD (applyPermInt perm sizeA)) with
      | .error e => (.error e, B)
      | .ok shpB =>
        let permE := if useRowMajor then relabelPerm dim p.perm else p.perm
        let sizeE := if useRowMajor then shpA.size.reverse else shpA.size
        let outerAE :=
          if useRowMajor then shpA.outerSize.reverse else shpA.outerSize
        let outerBE :=
          if useRowMajor then shpB.outerSize.reverse else shpB.outerSize
        (.ok (), runThreads ⟨permE, alpha, beta, conjA, conj, A, outerAE, outerBE⟩
          sizeE (max numThreads 1) B)

/-! ## Definitions: auto-tuning -/

/-- Modelled from the spec: the timed executions of Auto-Tune Measure mode —
each candidate plan (differing in its parallelization, i.e. its thread
count here) executes the actual transposition with the caller's real data,
one candidate after another, on the real destination buffer (spec §4.5);
the buffer after the call holds the result of the timed executions. -/
def autoTuneRuns (cfg : Config α) (sizeA : List Nat) (cands : List Nat)
    (buf : Nat → α) : Nat → α :=
  cands.foldl (fun b T => runThreads cfg sizeA T b) buf

/-- Modelled from the spec: the winning candidate is the one with the lowest
recorded duration, ties broken by preferring the earliest-generated
candidate (spec §4.5); `cost` abstracts the recorded minimum wall-clock
duration of each candidate. -/
def pickWinner (cost : Nat → Nat) (cands : List Nat) : Nat :=
  match cands with
  | [] => 1
  | c :: cs => cs.foldl (fun best t => if cost t < cost best then t else best) c

/-- Modelled from the spec: Auto-Tune Measure mode — times every candidate by
executing the real transposition, selects the winner, and returns it
together with the destination buffer as left by the timed executions
(spec §4.5). -/
def tensorTransposeAutoTuneMeasure (cfg : Config α) (sizeA : List Nat)
    (cands : List Nat) (cost : Nat → Nat) (buf : Nat → α) :
    Nat × (Nat → α) :=
  (pickWinner cost cands, autoTuneRuns cfg sizeA cands buf)

/-! ## Definitions: the embedded header declarations

A direct transcription of the twelve entry-point declarations of
`src/include/chptt.h` as data, to state claims about the interface
itself. -/

/-- The C types appearing in the header. -/
inductive CType where
  | void
  | int
  | bool
  | float
  | double
  | floatComplex
  | doubleComplex
  | constPtr (t : CType)
  | ptr (t : CType)
deriving DecidableEq

/-- A named C parameter. -/
structure CParam where
  name : String
  type : CType
deriving DecidableEq

/-- A C function declaration. -/
structure CFun where
  name : String
  ret : CType
  params : List CParam
deriving DecidableEq

/-- The parameter list shared by the real-typed entry points
(`chptt.h` lines 68-80, 98-110, 128-140), with element type `t`. -/
def realParams (t : CType) : List CParam :=
  [⟨"perm", .constPtr .int⟩, ⟨"dim", .int⟩, ⟨"alpha", t⟩,
   ⟨"A", .constPtr t⟩, ⟨"sizeA", .constPtr .int⟩,
   ⟨"outerSizeA", .constPtr .int⟩, ⟨"beta", t⟩, ⟨"B", .ptr t⟩,
   ⟨"outerSizeB", .constPtr .int⟩, ⟨"numThreads", .int⟩,
   ⟨"useRowMajor", .int⟩]

/-- The parameter list shared by the complex-typed entry points
(`chptt.h` lines 82-96, 112-126, 142-156): as the real one plus the
`conjA` flag after `alpha`. -/
def complexParams (t : CType) : List CParam :=
  [⟨"perm", .constPtr .int⟩, ⟨"dim", .int⟩, ⟨"alpha", t⟩,
   ⟨"conjA", .bool⟩, ⟨"A", .constPtr t⟩, ⟨"sizeA", .constPtr .int⟩,
   ⟨"outerSizeA", .constPtr .int⟩, ⟨"beta", t⟩, ⟨"B", .ptr t⟩,
   ⟨"outerSizeB", .constPtr .int⟩, ⟨"numThreads", .int⟩,
   ⟨"useRowMajor", .int⟩]

/-- The twelve entry points declared in `src/include/chptt.h`. -/
def chpttDecls : List CFun :=
  [⟨"sTensorTranspose", .void, realParams .float⟩,
   ⟨"dTensorTranspose", .void, realParams .double⟩,
   ⟨"cTensorTranspose", .void, complexParams .floatComplex⟩,
   ⟨"zTensorTranspose", .void, complexParams .doubleComplex⟩,
   ⟨"sTensorTransposeAutoTuneMeasure", .void, realParams .float⟩,
   ⟨"dTensorTransposeAutoTuneMeasure", .void, realParams .double⟩,
   ⟨"cTensorTransposeAutoTuneMeasure", .void, complexParams .floatComplex⟩,
   ⟨"zTensorTransposeAutoTuneMeasure", .void, complexParams .doubleComplex⟩,
   ⟨"sTensorTransposeAutoTunePatient", .void, realParams .float⟩,
   ⟨"dTensorTransposeAutoTunePatient", .void, realParams .double⟩,
   ⟨"cTensorTransposeAutoTunePatient", .void, complexParams .floatComplex⟩,
   ⟨"zTensorTransposeAutoTunePatient", .void, complexParams .doubleComplex⟩]

/-! ## Definitions: concrete instances used by the witnesses -/

/-- The end-to-end scenario of spec §8: rank-3, sizes `[4,6,8]`, permutation
`[2,0,1]`, alpha 2, beta 0, dense layout, with an arbitrary integer-valued
input tensor. -/
def cfgScenario : Config ℤ :=
  ⟨[2, 0, 1], 2, 0, false, id, fun o => (o : ℤ) + 1, [4, 6, 8], [8, 4, 6]⟩

/-- A small dense rank-2 identity-layout call used by several witnesses. -/
def cfgSmall : Config ℤ :=
  ⟨[1, 0], 1, 0, false, id, fun o => (o : ℤ) + 1, [2, 3], [3, 2]⟩

/-- A rank-1 call with `beta = 1` (accumulation), used to exhibit the
auto-tune measurement side effect. -/
def cfgAccum : Config ℤ :=
  ⟨[0], 1, 1, false, id, fun _ => 1, [1], [1]⟩

/-! ## Lemmas: offsets -/

theorem offsetIn_nil (outer : List Nat) : offsetIn [] outer = 0 := by
  simp [offsetIn, offset]

theorem zipWith_mul_map_left (c : Nat) (xs ys : List Nat) :
    List.zipWith (· * ·) xs (ys.map (c * ·)) =
      (List.zipWith (· * ·) xs ys).map (c * ·) := by
  induction xs generalizing ys with
  | nil => simp
  | cons x xs ih =>
    cases ys with
    | nil => simp
    | cons y ys => simp [ih]; ring

theorem sum_map_mul_left_nat (c : Nat) (xs : List Nat) :
    (xs.map (c * ·)).sum = c * xs.sum := by
  induction xs with
  | nil => simp
  | cons x xs ih => simp [ih]; ring

theorem offsetIn_cons (i : Nat) (is : List Nat) (o : Nat) (os : List Nat) :
    offsetIn (i :: is) (o :: os) = i + o * offsetIn is os := by
  simp [offsetIn, offset, strides, zipWith_mul_map_left, sum_map_mul_left_nat]

/-- Column-major addressing is injective on indices bounded by the outer
sizes. -/
theorem offsetIn_inj {idx idx' outer : List Nat}
    (h : List.Forall₂ (· < ·) idx outer)
    (h' : List.Forall₂ (· < ·) idx' outer)
    (heq : offsetIn idx outer = offsetIn idx' outer) : idx = idx' := by
  induction outer generalizing idx idx' with
  | nil =>
    cases h; cases h'; rfl
  | cons o os ih =>
    cases h with
    | cons hi hrest =>
      cases h' with
      | cons hi' hrest' =>
        rename_i i is i' is'
        rw [offsetIn_cons, offsetIn_cons] at heq
        have ho : 0 < o := Nat.lt_of_le_of_lt (Nat.zero_le i) hi
        have hmod : i = i' := by
          have h1 := congrArg (· % o) heq
          simpa [Nat.add_mul_mod_self_left, Nat.mod_eq_of_lt hi,
            Nat.mod_eq_of_lt hi'] using h1
        subst hmod
        have hdiv : offsetIn is os = offsetIn is' os := by
          have := Nat.add_left_cancel heq
          exact Nat.eq_of_mul_eq_mul_left ho this
        rw [ih hrest hrest' hdiv]

/-- Every linear position below the product of the sizes is the offset of a
bounded multi-index (surjectivity of dense addressing). -/
theorem decompose_valid {o : Nat} {ns : List Nat}
    (hpos : ∀ n ∈ ns, 0 < n) (h : o < ns.prod) :
    List.Forall₂ (· < ·) (decompose o ns) ns ∧ offsetIn (decompose o ns) ns = o := by
  induction ns generalizing o with
  | nil =>
    simp at h
    subst h
    exact ⟨List.Forall₂.nil, by simp [offsetIn, offset, decompose]⟩
  | cons n ns ih =>
    have hn : 0 < n := hpos n (List.mem_cons_self _ _)
    have hdiv : o / n < ns.prod := by
      rw [Nat.div_lt_iff_lt_mul hn]
      calc o < (n :: ns).prod := h
        _ = ns.prod * n := by rw [List.prod_cons]; ring
    obtain ⟨hf, hoff⟩ := ih (fun m hm => hpos m (List.mem_cons_of_mem _ hm)) hdiv
    refine ⟨List.Forall₂.cons (Nat.mod_lt _ hn) hf, ?_⟩
    rw [decompose, offsetIn_cons, hoff, Nat.mod_add_div]

/-! ## Lemmas: permutations -/

theorem applyPerm_length (perm idx : List Nat) :
    (applyPerm perm idx).length = perm.length := by
  simp [applyPerm]

theorem getD_map_lt {l : List Nat} {f : Nat → Nat} {n : Nat} (h : n < l.length)
    (d d' : Nat) : (l.map f).getD n d = f (l.getD n d') := by
  rw [List.getD_eq_getElem _ _ (by simpa using h), List.getD_eq_getElem _ _ h]
  simp

theorem forall₂_getD {γ δ : Type} {R : γ → δ → Prop} {l₁ : List γ}
    {l₂ : List δ} (h : List.Forall₂ R l₁ l₂) {n : Nat} (hn : n < l₁.length)
    (d : γ) (d' : δ) : R (l₁.getD n d) (l₂.getD n d') := by
  induction h generalizing n with
  | nil => simp at hn
  | cons hR hrest ih =>
    cases n with
    | zero => simpa using hR
    | succ n => simpa using ih (by simpa using hn)

theorem forall₂_of_getD {γ δ : Type} [Zero γ] [Zero δ] {R : γ → δ → Prop}
    {l₁ : List γ} {l₂ : List δ} (hlen : l₁.length = l₂.length)
    (h : ∀ n, n < l₁.length → R (l₁.getD n 0) (l₂.getD n 0)) :
    List.Forall₂ R l₁ l₂ := by
  induction l₁ generalizing l₂ with
  | nil =>
    cases l₂ with
    | nil => exact List.Forall₂.nil
    | cons b bs => simp at hlen
  | cons a as ih =>
    cases l₂ with
    | nil => simp at hlen
    | cons b bs =>
      refine List.Forall₂.cons ?_ (ih (by simpa using hlen) ?_)
      · simpa using h 0 (by simp)
      · intro n hn
        simpa using h (n + 1) (by simpa using Nat.succ_lt_succ hn)

theorem applyPerm_getD {perm idx : List Nat} {n : Nat} (hn : n < perm.length) :
    (applyPerm perm idx).getD n 0 = idx.getD (perm.getD n 0) 0 := by
  simp only [applyPerm]
  rw [getD_map_lt hn 0 0]

/-- Applying the permutation transports componentwise bounds: if `idx` is
bounded by `sizes` then the permuted index is bounded by the permuted
sizes. -/
theorem applyPerm_forall₂ {R : Nat → Nat → Prop} {perm idx sizes : List Nat}
    (hp : ∀ p ∈ perm, p < idx.length)
    (h : List.Forall₂ R idx sizes) :
    List.Forall₂ R (applyPerm perm idx) (applyPerm perm sizes) := by
  refine forall₂_of_getD (by simp [applyPerm_length]) ?_
  intro n hn
  rw [applyPerm_length] at hn
  have hmem : perm.getD n 0 ∈ perm := by
    rw [List.getD_eq_getElem _ _ hn]
    exact List.getElem_mem _
  have hlt : perm.getD n 0 < idx.length := hp _ hmem
  rw [applyPerm_getD hn, applyPerm_getD hn]
  exact forall₂_getD h hlt 0 0

/-- A nodup list of `dim` naturals all below `dim` contains every natural
below `dim`. -/
theorem validPerm_mem {perm : List Nat} {dim : Nat} (h : ValidPerm perm dim)
    {a : Nat} (ha : a < dim) : a ∈ perm := by
  obtain ⟨hlen, hnd, hlt⟩ := h
  have hsub : perm.toFinset ⊆ Finset.range dim := by
    intro x hx
    rw [List.mem_toFinset] at hx
    exact Finset.mem_range.mpr (hlt x hx)
  have hcard : perm.toFinset.card = dim := by
    rw [List.toFinset_card_of_nodup hnd, hlen]
  have heq : perm.toFinset = Finset.range dim :=
    Finset.eq_of_subset_of_card_le hsub (by rw [hcard]; simp)
  rw [← List.mem_toFinset, heq]
  exact Finset.mem_range.mpr ha

/-- Applying a valid permutation is injective on indices of length `dim`. -/
theorem applyPerm_inj {perm : List Nat} {dim : Nat} (h : ValidPerm perm dim)
    {idx idx' : List Nat} (hl : idx.length = dim) (hl' : idx'.length = dim)
    (heq : applyPerm perm idx = applyPerm perm idx') : idx = idx' := by
  apply List.ext_getElem (by rw [hl, hl'])
  intro a ha ha'
  rw [hl] at ha
  have hmem : a ∈ perm := validPerm_mem h ha
  obtain ⟨k, hk, hka⟩ := List.getElem_of_mem hmem
  have h1 : (applyPerm perm idx).getD k 0 = (applyPerm perm idx').getD k 0 := by
    rw [heq]
  rw [applyPerm_getD hk, applyPerm_getD hk] at h1
  rw [List.getD_eq_getElem _ _ hk] at h1
  rw [hka] at h1
  rw [List.getD_eq_getElem _ _ (hl ▸ ha), List.getD_eq_getElem _ _ (hl' ▸ ha)] at h1
  exact h1

/-- Applying the identity permutation `[0, 1, ..., dim-1]` is the identity on
indices of length `dim`. -/
theorem applyPerm_range {idx : List Nat} {dim : Nat} (hl : idx.length = dim) :
    applyPerm (List.range dim) idx = idx := by
  apply List.ext_getElem (by simp [applyPerm_length, hl])
  intro a ha ha'
  have hadim : a < dim := by simpa [applyPerm_length] using ha
  simp only [applyPerm, List.getElem_map, List.getElem_range]
  rw [List.getD_eq_getElem _ _ (by omega)]

/-- Composition through a right inverse: if `perm (perm2 k) = k` for all
`k < dim`, the two applications cancel on indices of length `dim`. -/
theorem applyPerm_applyPerm_inv {perm perm2 idx : List Nat} {dim : Nat}
    (hp : ValidPerm perm dim) (hp2 : ValidPerm perm2 dim)
    (hinv : ∀ k, k < dim → perm.getD (perm2.getD k 0) 0 = k)
    (hl : idx.length = dim) :
    applyPerm perm2 (applyPerm perm idx) = idx := by
  apply List.ext_getElem (by simp [applyPerm_length, hp2.1, hl])
  intro k hk hk'
  have hkdim : k < dim := by simpa [applyPerm_length, hp2.1] using hk
  have hk2 : k < perm2.length := by rw [hp2.1]; exact hkdim
  simp only [applyPerm, List.getElem_map]
  have hmem2 : perm2[k] ∈ perm2 := List.getElem_mem _
  have hlt2 : perm2[k] < dim := hp2.2.2 _ hmem2
  have hltp : perm2[k] < perm.length := by rw [hp.1]; exact hlt2
  rw [getD_map_lt hltp 0 0]
  have hval : perm.getD (perm2[k]) 0 = k := by
    have := hinv k hkdim
    rwa [List.getD_eq_getElem perm2 _ hk2] at this
  rw [hval, List.getD_eq_getElem _ _ (by omega)]

/-! ## Lemmas: enumeration of the index region -/

theorem seg_append (tails : List (List Nat)) (lo a b : Nat) :
    seg tails lo (a + b) = seg tails lo a ++ seg tails (lo + a) b := by
  induction a generalizing lo with
  | zero => simp [seg]
  | succ a ih =>
    have : a + 1 + b = (a + b) + 1 := by omega
    rw [this, seg, seg, ih (lo + 1), List.append_assoc]
    have h2 : lo + 1 + a = lo + (a + 1) := by omega
    rw [h2]

theorem mem_seg {tails : List (List Nat)} {lo len : Nat} {idx : List Nat} :
    idx ∈ seg tails lo len ↔
      ∃ h t, idx = h :: t ∧ lo ≤ h ∧ h < lo + len ∧ t ∈ tails := by
  induction len generalizing lo with
  | zero =>
    simp [seg]
    intro h t _ h1 h2
    omega
  | succ len ih =>
    rw [seg]
    simp only [List.mem_append, List.mem_map, ih]
    constructor
    · rintro (⟨t, ht, rfl⟩ | ⟨h, t, rfl, h1, h2, ht⟩)
      · exact ⟨lo, t, rfl, Nat.le_refl _, by omega, ht⟩
      · exact ⟨h, t, rfl, by omega, by omega, ht⟩
    · rintro ⟨h, t, rfl, h1, h2, ht⟩
      rcases Nat.eq_or_lt_of_le h1 with heq | hlt
      · exact Or.inl ⟨t, ht, by rw [heq]⟩
      · exact Or.inr ⟨h, t, rfl, hlt, by omega, ht⟩

theorem mem_allIdx {sizes idx : List Nat} :
    idx ∈ allIdx sizes ↔ List.Forall₂ (· < ·) idx sizes := by
  induction sizes generalizing idx with
  | nil =>
    simp only [allIdx, List.mem_singleton]
    constructor
    · rintro rfl; exact List.Forall₂.nil
    · intro h; cases h; rfl
  | cons n ns ih =>
    rw [allIdx, mem_seg]
    constructor
    · rintro ⟨h, t, rfl, _, h2, ht⟩
      exact List.Forall₂.cons (by omega) (ih.mp ht)
    · intro h
      cases h with
      | cons hh ht =>
        rename_i i is
        exact ⟨i, is, rfl, Nat.zero_le _, by omega, ih.mpr ht⟩

theorem nodup_seg {tails : List (List Nat)} (hnd : tails.Nodup)
    (lo len : Nat) : (seg tails lo len).Nodup := by
  induction len generalizing lo with
  | zero => simp [seg]
  | succ len ih =>
    rw [seg]
    apply List.Nodup.append
    · exact hnd.map (fun a b h => by injection h)
    · exact ih (lo + 1)
    · intro x hx hx'
      obtain ⟨t, _, rfl⟩ := List.mem_map.mp hx
      obtain ⟨h, t', heq, h1, _, _⟩ := mem_seg.mp hx'
      injection heq with heq1 _
      omega

theorem nodup_allIdx (sizes : List Nat) : (allIdx sizes).Nodup := by
  induction sizes with
  | nil => simp [allIdx]
  | cons n ns ih => exact nodup_seg ih 0 n

theorem length_of_mem_allIdx {sizes idx : List Nat}
    (h : idx ∈ allIdx sizes) : idx.length = sizes.length :=
  (mem_allIdx.mp h).length_eq

/-! ## Lemmas: the executor -/

variable {α : Type} [CommRing α] [DecidableEq α]

theorem execOn_append (cfg : Config α) (xs ys : List (List Nat))
    (buf : Nat → α) :
    execOn cfg (xs ++ ys) buf = execOn cfg ys (execOn cfg xs buf) := by
  simp [execOn, List.foldl_append]

/-- Positions that no enumerated index writes to are left untouched. -/
theorem execOn_untouched (cfg : Config α) {idxs : List (List Nat)} {o : Nat}
    (h : ∀ i ∈ idxs, offB cfg i ≠ o) (buf : Nat → α) :
    execOn cfg idxs buf o = buf o := by
  induction idxs generalizing buf with
  | nil => rfl
  | cons i rest ih =>
    rw [execOn, List.foldl_cons]
    have := ih (fun j hj => h j (List.mem_cons_of_mem _ hj)) (writeIdx cfg buf i)
    rw [execOn] at this
    rw [this]
    simp only [writeIdx]
    rw [if_neg]
    exact fun he => h i (List.mem_cons_self _ _) he.symm

/-- Characterization of the executor on an enumeration whose destination
offsets are pairwise distinct: each position holds either the updated value
of the unique index mapped there, or its original content. -/
theorem execOn_eq (cfg : Config α) {idxs : List (List Nat)}
    (hnd : (idxs.map (offB cfg)).Nodup) (buf : Nat → α) (o : Nat) :
    execOn cfg idxs buf o =
      match idxs.find? (fun i => offB cfg i == o) with
      | some i => axpby cfg.alpha cfg.beta (aval cfg i) (buf o)
      | none => buf o := by
  induction idxs generalizing buf with
  | nil => rfl
  | cons i rest ih =>
    rw [List.map_cons, List.nodup_cons] at hnd
    obtain ⟨hni, hndr⟩ := hnd
    rw [execOn, List.foldl_cons]
    have hstep := ih hndr (writeIdx cfg buf i)
    rw [execOn] at hstep
    by_cases hb : offB cfg i = o
    · subst hb
      rw [List.find?_cons_of_pos _ (by simp)]
      have hnone : rest.find? (fun j => offB cfg j == offB cfg i) = none := by
        rw [List.find?_eq_none]
        intro j hj hjeq
        exact hni (List.mem_map.mpr ⟨j, hj, by simpa using hjeq⟩)
      rw [hstep, hnone]
      simp [writeIdx]
    · rw [List.find?_cons_of_neg _ (by simpa using hb)]
      have hbuf : writeIdx cfg buf i o = buf o := by
        simp only [writeIdx]
        rw [if_neg (fun he => hb he.symm)]
      rw [hstep]
      cases hfind : rest.find? (fun j => offB cfg j == o) with
      | none => simp [hbuf]
      | some j => simp [hbuf]

/-- The value finally stored at the destination offset of an enumerated
index. -/
theorem execOn_written (cfg : Config α) {idxs : List (List Nat)}
    (hnd : (idxs.map (offB cfg)).Nodup) {i : List Nat} (hi : i ∈ idxs)
    (buf : Nat → α) :
    execOn cfg idxs buf (offB cfg i) =
      axpby cfg.alpha cfg.beta (aval cfg i) (buf (offB cfg i)) := by
  rw [execOn_eq cfg hnd buf (offB cfg i)]
  cases hfind : idxs.find? (fun j => offB cfg j == offB cfg i) with
  | none =>
    rw [List.find?_eq_none] at hfind
    exact absurd (by simp : (offB cfg i == offB cfg i) = true) (hfind i hi)
  | some j =>
    have hjmem : j ∈ idxs := List.mem_of_find?_eq_some hfind
    have hjeq : offB cfg j = offB cfg i := by
      have := List.find?_some hfind
      simpa using this
    have : j = i := List.inj_on_of_nodup_map hnd hjmem hi hjeq
    rw [this]

/-- The executor's output does not depend on the order of an enumeration with
pairwise-distinct destination offsets. -/
theorem execOn_perm (cfg : Config α) {idxs idxs' : List (List Nat)}
    (hnd : (idxs.map (offB cfg)).Nodup) (hp : idxs.Perm idxs')
    (buf : Nat → α) (o : Nat) :
    execOn cfg idxs buf o = execOn cfg idxs' buf o := by
  have hnd' : (idxs'.map (offB cfg)).Nodup := ((hp.map (offB cfg)).nodup_iff).mp hnd
  rw [execOn_eq cfg hnd buf o, execOn_eq cfg hnd' buf o]
  cases hfind : idxs.find? (fun i => offB cfg i == o) with
  | none =>
    rw [List.find?_eq_none] at hfind
    cases hfind' : idxs'.find? (fun i => offB cfg i == o) with
    | none => rfl
    | some j =>
      have hjmem : j ∈ idxs := hp.mem_iff.mpr (List.mem_of_find?_eq_some hfind')
      exact absurd (List.find?_some hfind') (by simpa using hfind j hjmem)
  | some i =>
    have himem : i ∈ idxs := List.mem_of_find?_eq_some hfind
    have hieq : offB cfg i = o := by simpa using List.find?_some hfind
    cases hfind' : idxs'.find? (fun j => offB cfg j == o) with
    | none =>
      rw [List.find?_eq_none] at hfind'
      exact absurd (by simpa using hieq) (hfind' i (hp.mem_iff.mp himem))
    | some j =>
      have hjmem : j ∈ idxs := hp.mem_iff.mpr (List.mem_of_find?_eq_some hfind')
      have hjeq : offB cfg j = o := by simpa using List.find?_some hfind'
      have : j = i := List.inj_on_of_nodup_map hnd hjmem himem (by rw [hjeq, hieq])
      rw [this]

/-! ## Lemmas: validity and the pointwise semantics of `run` -/

theorem forall₂_lt_of_lt_le {a b c : List Nat}
    (h₁ : List.Forall₂ (· < ·) a b) (h₂ : List.Forall₂ (· ≤ ·) b c) :
    List.Forall₂ (· < ·) a c := by
  induction h₁ generalizing c with
  | nil => cases h₂; exact List.Forall₂.nil
  | cons hab hrest ih =>
    cases h₂ with
    | cons hbc hrest' => exact List.Forall₂.cons (by omega) (ih hrest')

theorem ValidCall.permIdx_lt {cfg : Config α} {sizeA : List Nat}
    (hv : ValidCall cfg sizeA) {idx : List Nat}
    (hidx : List.Forall₂ (· < ·) idx sizeA) :
    List.Forall₂ (· < ·) (applyPerm cfg.perm idx) cfg.outerSizeB := by
  have hlen : idx.length = sizeA.length := hidx.length_eq
  have hperm : List.Forall₂ (· < ·) (applyPerm cfg.perm idx)
      (applyPerm cfg.perm sizeA) :=
    applyPerm_forall₂ (fun p hp => hlen ▸ hv.perm_valid.2.2 p hp) hidx
  exact forall₂_lt_of_lt_le hperm hv.outerB_ge

/-- Under a valid call, distinct logical indices write to distinct
destination offsets. -/
theorem offB_inj_on {cfg : Config α} {sizeA : List Nat}
    (hv : ValidCall cfg sizeA) {idx idx' : List Nat}
    (h : List.Forall₂ (· < ·) idx sizeA)
    (h' : List.Forall₂ (· < ·) idx' sizeA)
    (heq : offB cfg idx = offB cfg idx') : idx = idx' := by
  have hb := hv.permIdx_lt h
  have hb' := hv.permIdx_lt h'
  have : applyPerm cfg.perm idx = applyPerm cfg.perm idx' :=
    offsetIn_inj hb hb' heq
  exact applyPerm_inj hv.perm_valid h.length_eq h'.length_eq this

theorem offB_map_nodup {cfg : Config α} {sizeA : List Nat}
    (hv : ValidCall cfg sizeA) :
    ((allIdx sizeA).map (offB cfg)).Nodup := by
  refine List.Nodup.map_on ?_ (nodup_allIdx sizeA)
  intro x hx y hy hxy
  exact offB_inj_on hv (mem_allIdx.mp hx) (mem_allIdx.mp hy) hxy

/-- Pointwise semantics of a single-threaded run: every valid logical index
`idx` of A ends with `B[perm(idx)] = axpby alpha beta A[idx] B0[perm(idx)]`. -/
theorem run_written {cfg : Config α} {sizeA : List Nat}
    (hv : ValidCall cfg sizeA) {idx : List Nat}
    (hidx : List.Forall₂ (· < ·) idx sizeA) (B0 : Nat → α) :
    run cfg sizeA B0 (offB cfg idx) =
      axpby cfg.alpha cfg.beta (aval cfg idx) (B0 (offB cfg idx)) :=
  execOn_written cfg (offB_map_nodup hv) (mem_allIdx.mpr hidx) B0

/-- Positions that are not the destination offset of any valid logical index
keep their original contents. -/
theorem run_untouched {cfg : Config α} {sizeA : List Nat} {o : Nat}
    (h : ∀ idx, List.Forall₂ (· < ·) idx sizeA → offB cfg idx ≠ o)
    (B0 : Nat → α) : run cfg sizeA B0 o = B0 o :=
  execOn_untouched cfg (fun i hi => h i (mem_allIdx.mp hi)) B0

/-! ## Lemmas: thread partitioning -/

theorem le_mul_ceilDiv {T : Nat} (n : Nat) (hT : 0 < T) :
    n ≤ T * ceilDiv n T := by
  cases n with
  | zero => simp
  | succ m =>
    have hdiv : ceilDiv (m + 1) T = m / T + 1 := by
      rw [ceilDiv]
      have : m + 1 + T - 1 = m + T := by omega
      rw [this, Nat.add_div_right m hT]
    rw [hdiv]
    have hdm : T * (m / T) + m % T = m := Nat.div_add_mod m T
    have hmod : m % T < T := Nat.mod_lt m hT
    have hexp : T * (m / T + 1) = T * (m / T) + T := by ring
    omega

theorem catIdx_append (ls ls' : List (List (List Nat))) :
    catIdx (ls ++ ls') = catIdx ls ++ catIdx ls' := by
  induction ls with
  | nil => simp [catIdx]
  | cons l ls ih => simp [catIdx, ih]

theorem execChunks_eq_execOn_catIdx (cfg : Config α)
    (ls : List (List (List Nat))) (buf : Nat → α) :
    execChunks cfg ls buf = execOn cfg (catIdx ls) buf := by
  induction ls generalizing buf with
  | nil => rfl
  | cons l ls ih =>
    rw [execChunks, List.foldl_cons, catIdx, execOn_append]
    exact ih (execOn cfg l buf)

theorem catIdx_perm {ls ls' : List (List (List Nat))} (h : ls.Perm ls') :
    (catIdx ls).Perm (catIdx ls') := by
  induction h with
  | nil => exact List.Perm.refl _
  | cons x _ ih => exact ih.append_left x
  | swap x y l =>
    show (y ++ (x ++ catIdx l)).Perm (x ++ (y ++ catIdx l))
    rw [← List.append_assoc, ← List.append_assoc]
    exact (List.perm_append_comm).append_right (catIdx l)
  | trans _ _ ih1 ih2 => exact ih1.trans ih2

/-- The per-thread sub-ranges tile the full enumeration exactly: their
concatenation, in thread order, is the single-threaded loop nest. -/
theorem catIdx_chunksUpTo (tails : List (List Nat)) (c n T : Nat) :
    catIdx (chunksUpTo tails c n T) = seg tails 0 (min (T * c) n) := by
  induction T with
  | zero => simp [chunksUpTo, catIdx, seg]
  | succ t ih =>
    rw [chunksUpTo, catIdx_append, ih, catIdx, catIdx]
    rw [List.append_nil, chunkSeg]
    have hle : min (t * c) n ≤ min ((t + 1) * c) n := by
      have : (t + 1) * c = t * c + c := by ring
      omega
    have hsum : min (t * c) n + (min ((t + 1) * c) n - min (t * c) n) =
        min ((t + 1) * c) n := by omega
    rw [← hsum, seg_append]
    simp

theorem catIdx_threadChunks {sizeA : List Nat} {T : Nat} (hT : 0 < T) :
    catIdx (threadChunks sizeA T) = allIdx sizeA := by
  cases sizeA with
  | nil => simp [threadChunks, catIdx, allIdx]
  | cons n ns =>
    rw [threadChunks, catIdx_chunksUpTo, allIdx]
    have := le_mul_ceilDiv n hT
    have : min (T * ceilDiv n T) n = n := by omega
    rw [this]

/-- Multi-threaded execution — with the per-thread work lists completed in
any order — yields exactly the single-threaded result. -/
theorem execChunks_perm_eq_run {cfg : Config α} {sizeA : List Nat}
    (hv : ValidCall cfg sizeA) {T : Nat} (hT : 0 < T)
    {ls : List (List (List Nat))} (hls : ls.Perm (threadChunks sizeA T))
    (B0 : Nat → α) (o : Nat) :
    execChunks cfg ls B0 o = run cfg sizeA B0 o := by
  rw [execChunks_eq_execOn_catIdx, run]
  have hperm : (catIdx ls).Perm (allIdx sizeA) := by
    rw [← catIdx_threadChunks hT]
    exact catIdx_perm hls
  have hnd : ((allIdx sizeA).map (offB cfg)).Nodup := offB_map_nodup hv
  have hnd' : ((catIdx ls).map (offB cfg)).Nodup :=
    ((hperm.map (offB cfg)).nodup_iff).mpr hnd
  exact execOn_perm cfg hnd' hperm B0 o

/-- Multi-threaded execution with `T` threads agrees pointwise with the
single-threaded run. -/
theorem runThreads_eq_run {cfg : Config α} {sizeA : List Nat}
    (hv : ValidCall cfg sizeA) {T : Nat} (hT : 0 < T) (B0 : Nat → α)
    (o : Nat) : runThreads cfg sizeA T B0 o = run cfg sizeA B0 o :=
  execChunks_perm_eq_run hv hT (List.Perm.refl _) B0 o

/-! ## Lemmas: the executor reads A only inside the logical region -/

/-- Two calls that share the permutation, the scalars and the destination
layout, and whose input elements agree on every enumerated index, execute
identically. -/
theorem execOn_congr_aval {cfg cfg' : Config α}
    (hperm : cfg.perm = cfg'.perm) (halpha : cfg.alpha = cfg'.alpha)
    (hbeta : cfg.beta = cfg'.beta) (houtB : cfg.outerSizeB = cfg'.outerSizeB)
    {idxs : List (List Nat)} (haval : ∀ i ∈ idxs, aval cfg i = aval cfg' i)
    (buf : Nat → α) : execOn cfg idxs buf = execOn cfg' idxs buf := by
  induction idxs generalizing buf with
  | nil => rfl
  | cons i rest ih =>
    rw [execOn, execOn, List.foldl_cons, List.foldl_cons]
    have hoff : offB cfg i = offB cfg' i := by
      simp only [offB, hperm, houtB]
    have hw : writeIdx cfg buf i = writeIdx cfg' buf i := by
      funext o
      simp only [writeIdx]
      rw [hoff, halpha, hbeta, haval i (List.mem_cons_self _ _)]
    rw [hw]
    exact ih (fun j hj => haval j (List.mem_cons_of_mem _ hj)) _

/-! ## Lemmas: the `beta = 0` case -/

theorem axpby_beta0 (alpha a b : α) : axpby alpha 0 a b = alpha * a := by
  simp [axpby]

/-- With `beta = 0`, the final contents at any position depend on the input
buffer only at positions the call does not write. -/
theorem run_beta0_congr {cfg : Config α} {sizeA : List Nat}
    (hv : ValidCall cfg sizeA) (hbeta : cfg.beta = 0) {buf buf' : Nat → α}
    (h : ∀ o, buf o = buf' o ∨
      ∃ idx, List.Forall₂ (· < ·) idx sizeA ∧ offB cfg idx = o)
    (o : Nat) : run cfg sizeA buf o = run cfg sizeA buf' o := by
  by_cases hw : ∃ idx, List.Forall₂ (· < ·) idx sizeA ∧ offB cfg idx = o
  · obtain ⟨idx, hidx, rfl⟩ := hw
    rw [run_written hv hidx, run_written hv hidx, hbeta, axpby_beta0, axpby_beta0]
  · have hnw : ∀ idx, List.Forall₂ (· < ·) idx sizeA → offB cfg idx ≠ o :=
      fun idx hidx he => hw ⟨idx, hidx, he⟩
    rw [run_untouched hnw, run_untouched hnw]
    rcases h o with he | hex
    · exact he
    · exact absurd hex hw

/-- With `beta = 0` the run is idempotent: running again on its own output
changes nothing. -/
theorem run_beta0_idem {cfg : Config α} {sizeA : List Nat}
    (hv : ValidCall cfg sizeA) (hbeta : cfg.beta = 0) (buf : Nat → α)
    (o : Nat) :
    run cfg sizeA (run cfg sizeA buf) o = run cfg sizeA buf o := by
  refine run_beta0_congr hv hbeta ?_ o
  intro o'
  by_cases hw : ∃ idx, List.Forall₂ (· < ·) idx sizeA ∧ offB cfg idx = o'
  · exact Or.inr hw
  · exact Or.inl (run_untouched (fun idx hidx he => hw ⟨idx, hidx, he⟩) buf)

/-- With `beta = 0`, the sequence of timed auto-tune executions leaves the
destination exactly as a single (heuristic) execution would. -/
theorem autoTuneRuns_beta0 {cfg : Config α} {sizeA : List Nat}
    (hv : ValidCall cfg sizeA) (hbeta : cfg.beta = 0) {cands : List Nat}
    (hne : cands ≠ []) (hpos : ∀ T ∈ cands, 0 < T) (buf : Nat → α)
    (o : Nat) : autoTuneRuns cfg sizeA cands buf o = run cfg sizeA buf o := by
  induction cands generalizing buf with
  | nil => exact absurd rfl hne
  | cons c rest ih =>
    have hc : 0 < c := hpos c (List.mem_cons_self _ _)
    have hfirst : ∀ o', runThreads cfg sizeA c buf o' = run cfg sizeA buf o' :=
      fun o' => runThreads_eq_run hv hc buf o'
    cases rest with
    | nil =>
      show runThreads cfg sizeA c buf o = run cfg sizeA buf o
      exact hfirst o
    | cons c' rest' =>
      have hstep : autoTuneRuns cfg sizeA (c :: c' :: rest') buf o =
          autoTuneRuns cfg sizeA (c' :: rest') (runThreads cfg sizeA c buf) o := by
        rw [autoTuneRuns, autoTuneRuns, List.foldl_cons]
      rw [hstep]
      rw [ih (by simp) (fun T hT => hpos T (List.mem_cons_of_mem _ hT))]
      have hfun : runThreads cfg sizeA c buf = run cfg sizeA buf := funext hfirst
      rw [hfun]
      exact run_beta0_idem hv hbeta buf o

/-! ## Lemmas: validation -/

theorem allPos_iff (l : List Int) : allPos l = true ↔ ∀ x ∈ l, 0 < x := by
  simp [allPos]

theorem leqPointwise_iff : ∀ {a b : List Int},
    leqPointwise a b = true ↔ List.Forall₂ (· ≤ ·) a b := by
  intro a
  induction a with
  | nil =>
    intro b
    cases b with
    | nil => simp [leqPointwise]
    | cons y ys =>
      simp only [leqPointwise]
      constructor
      · intro h; cases h
      · intro h; cases h
  | cons x xs ih =>
    intro b
    cases b with
    | nil =>
      simp only [leqPointwise]
      constructor
      · intro h; cases h
      · intro h; cases h
    | cons y ys =>
      rw [leqPointwise, Bool.and_eq_true, decide_eq_true_eq, ih]
      constructor
      · rintro ⟨h1, h2⟩; exact List.Forall₂.cons h1 h2
      · intro h; cases h with | cons h1 h2 => exact ⟨h1, h2⟩

/-- The shape constructor fails with `InvalidShape` exactly when a size or an
outer size is non-positive or an outer size is below the matching size. -/
theorem shapeDescriptor_make_error_iff {size outerSize : List Int}
    (hlen : size.length = outerSize.length) :
    ShapeDescriptor.make size outerSize = .error .invalidShape ↔
      (∃ s ∈ size, s ≤ 0) ∨ (∃ s ∈ outerSize, s ≤ 0) ∨
        ∃ k, k < size.length ∧ outerSize.getD k 0 < size.getD k 0 := by
  rw [ShapeDescriptor.make]
  split
  · rename_i hcond
    rw [Bool.and_eq_true, Bool.and_eq_true] at hcond
    obtain ⟨⟨hps, hpo⟩, hleq⟩ := hcond
    rw [allPos_iff] at hps hpo
    rw [leqPointwise_iff] at hleq
    constructor
    · intro h; cases h
    · rintro (⟨s, hs, hs0⟩ | ⟨s, hs, hs0⟩ | ⟨k, hk, hlt⟩)
      · exact absurd (hps s hs) (by omega)
      · exact absurd (hpo s hs) (by omega)
      · exact absurd (forall₂_getD hleq hk 0 0) (by omega)
  · rename_i hcond
    simp only [Bool.and_eq_true, not_and_or] at hcond
    constructor
    · intro _
      rcases hcond with (h | h) | h
      · rw [allPos_iff] at h
        push_neg at h
        obtain ⟨s, hs, hs0⟩ := h
        exact Or.inl ⟨s, hs, by omega⟩
      · rw [allPos_iff] at h
        push_neg at h
        obtain ⟨s, hs, hs0⟩ := h
        exact Or.inr (Or.inl ⟨s, hs, by omega⟩)
      · refine Or.inr (Or.inr ?_)
        by_contra hno
        push_neg at hno
        refine h ?_
        rw [leqPointwise_iff]
        exact forall₂_of_getD hlen fun n hn => by
          have := hno n hn
          omega
    · intro _; rfl

/-- The permutation constructor fails with `InvalidPermutation` exactly when
the sequence has the wrong length, a repeated index, or an out-of-range
index. -/
theorem permutation_make_error_iff (dim : Nat) (perm : List Int) :
    Permutation.make dim perm = .error .invalidPermutation ↔
      perm.length ≠ dim ∨ ¬perm.Nodup ∨
        ∃ p ∈ perm, p < 0 ∨ (dim : Int) ≤ p := by
  rw [Permutation.make]
  split
  · rename_i hcond
    obtain ⟨h1, h2, h3⟩ := hcond
    constructor
    · intro h; cases h
    · rintro (h | h | ⟨p, hp, hout⟩)
      · exact absurd h1 h
      · exact absurd h2 h
      · have := h3 p hp
        omega
  · rename_i hcond
    constructor
    · intro _
      rw [not_and_or, not_and_or] at hcond
      rcases hcond with h | h | h
      · exact Or.inl h
      · exact Or.inr (Or.inl h)
      · push_neg at h
        obtain ⟨p, hp, hout⟩ := h
        exact Or.inr (Or.inr ⟨p, hp, by omega⟩)
    · intro _; rfl

/-- On any validation failure the entry point leaves the destination buffer
untouched. -/
theorem tensorTranspose_error_untouched (perm : List Int) (dim : Nat)
    (alpha : α) (conjA : Bool) (conj : α → α) (A : Nat → α)
    (sizeA : List Int) (outerSizeA : Option (List Int)) (beta : α)
    (B : Nat → α) (outerSizeB : Option (List Int)) (numThreads : Nat)
    (useRowMajor : Bool)
    (h : (tensorTranspose perm dim alpha conjA conj A sizeA outerSizeA beta B
      outerSizeB numThreads useRowMajor).1 ≠ .ok ()) :
    (tensorTranspose perm dim alpha conjA conj A sizeA outerSizeA beta B
      outerSizeB numThreads useRowMajor).2 = B := by
  rw [tensorTranspose] at h ⊢
  cases hA : ShapeDescriptor.make sizeA (outerSizeA.getD sizeA) with
  | error e => rfl
  | ok shpA =>
    rw [hA] at h
    cases hP : Permutation.make dim perm with
    | error e => rfl
    | ok p =>
      rw [hP] at h
      cases hB : ShapeDescriptor.make (applyPermInt perm sizeA)
          (outerSizeB.getD (applyPermInt perm sizeA)) with
      | error e => rfl
      | ok shpB =>
        rw [hB] at h
        exact absurd rfl h

/-! ## The claims -/

/-- C1: for every valid input (shape, permutation, alpha, beta, buffers) and
requested thread count, the tensor-transpose execution computes, for every
valid index tuple `idx` of A,
`B[perm(idx)] = alpha*A[idx] + beta*B0[perm(idx)]`, with optional
conjugation of A folded into `aval`; the spec §8 end-to-end scenario
(rank 3, sizes [4,6,8], permutation [2,0,1], alpha 2, beta 0, one thread)
is the witness instance. -/
theorem claim_C1 {α : Type} [CommRing α] [DecidableEq α] {cfg : Config α}
    {sizeA : List Nat} (hv : ValidCall cfg sizeA) (T : Nat) (hT : 0 < T)
    {idx : List Nat} (hidx : List.Forall₂ (· < ·) idx sizeA) (B0 : Nat → α) :
    runThreads cfg sizeA T B0 (offB cfg idx) =
      cfg.alpha * aval cfg idx + cfg.beta * B0 (offB cfg idx) := by
  rw [runThreads_eq_run hv hT, run_written hv hidx, axpby]
  split
  · rename_i h
    rw [h]
    ring
  · rfl

theorem claim_C1_witness :
    ValidCall cfgScenario [4, 6, 8] ∧
    runThreads cfgScenario [4, 6, 8] 1 (fun _ => (0 : ℤ))
        (offB cfgScenario [1, 2, 3]) =
      cfgScenario.alpha * aval cfgScenario [1, 2, 3] +
        cfgScenario.beta * (fun _ => (0 : ℤ)) (offB cfgScenario [1, 2, 3]) := by
  have hv : ValidCall cfgScenario [4, 6, 8] := ⟨by decide, by decide, by decide⟩
  exact ⟨hv, claim_C1 hv 1 (by decide)
    (by decide : List.Forall₂ (· < ·) [1, 2, 3] [4, 6, 8]) _⟩

/-- C2: with `beta = 0` the value stored at every written destination
position is independent of the destination buffer's prior contents (the
update never reads the pre-existing element of B). -/
theorem claim_C2 {α : Type} [CommRing α] [DecidableEq α] {cfg : Config α}
    {sizeA : List Nat} (hv : ValidCall cfg sizeA) (hbeta : cfg.beta = 0)
    (T : Nat) (hT : 0 < T) {idx : List Nat}
    (hidx : List.Forall₂ (· < ·) idx sizeA) (B0 B0' : Nat → α) :
    runThreads cfg sizeA T B0 (offB cfg idx) =
      runThreads cfg sizeA T B0' (offB cfg idx) := by
  rw [runThreads_eq_run hv hT, runThreads_eq_run hv hT,
    run_written hv hidx, run_written hv hidx, hbeta, axpby_beta0, axpby_beta0]

theorem claim_C2_witness :
    ValidCall cfgSmall [2, 3] ∧
    runThreads cfgSmall [2, 3] 1 (fun _ => (0 : ℤ)) (offB cfgSmall [1, 2]) =
      runThreads cfgSmall [2, 3] 1 (fun _ => (37 : ℤ)) (offB cfgSmall [1, 2]) := by
  have hv : ValidCall cfgSmall [2, 3] := ⟨by decide, by decide, by decide⟩
  exact ⟨hv, claim_C2 hv rfl 1 (by decide)
    (by decide : List.Forall₂ (· < ·) [1, 2] [2, 3]) _ _⟩

/-- C3: transposing by a permutation with alpha 1, beta 0 and then
transposing the result by the inverse permutation (alpha 1, beta 0) restores
every element of the original tensor; in this exact-arithmetic model the
round trip is an equality. -/
theorem claim_C3 {α : Type} [CommRing α] [DecidableEq α]
    {perm perm2 sizeA outerA outerB outerC : List Nat}
    (hp : ValidPerm perm sizeA.length) (hp2 : ValidPerm perm2 sizeA.length)
    (hinv : ∀ k, k < sizeA.length → perm.getD (perm2.getD k 0) 0 = k)
    (hoA : List.Forall₂ (· ≤ ·) sizeA outerA)
    (hoB : List.Forall₂ (· ≤ ·) (applyPerm perm sizeA) outerB)
    (hoC : List.Forall₂ (· ≤ ·) sizeA outerC)
    (A B0 B1 : Nat → α) {idx : List Nat}
    (hidx : List.Forall₂ (· < ·) idx sizeA) :
    run ⟨perm2, 1, 0, false, id,
        run ⟨perm, 1, 0, false, id, A, outerA, outerB⟩ sizeA B0, outerB, outerC⟩
      (applyPerm perm sizeA) B1 (offsetIn idx outerC) =
      A (offsetIn idx outerA) := by
  have hdim : idx.length = sizeA.length := hidx.length_eq
  have hv1 : ValidCall (⟨perm, 1, 0, false, id, A, outerA, outerB⟩ : Config α)
      sizeA := ⟨hp, hoA, hoB⟩
  have hsizeB : (applyPerm perm sizeA).length = sizeA.length := by
    rw [applyPerm_length, hp.1]
  have hinvS : applyPerm perm2 (applyPerm perm sizeA) = sizeA :=
    applyPerm_applyPerm_inv hp hp2 hinv rfl
  have hv2 : ValidCall
      (⟨perm2, 1, 0, false, id,
        run ⟨perm, 1, 0, false, id, A, outerA, outerB⟩ sizeA B0,
        outerB, outerC⟩ : Config α) (applyPerm perm sizeA) := by
    refine ⟨?_, hoB, ?_⟩
    · rw [hsizeB]
      exact hp2
    · show List.Forall₂ (· ≤ ·) (applyPerm perm2 (applyPerm perm sizeA)) outerC
      rw [hinvS]
      exact hoC
  have hj : List.Forall₂ (· < ·) (applyPerm perm idx) (applyPerm perm sizeA) :=
    applyPerm_forall₂ (fun p hp' => hdim ▸ hp.2.2 p hp') hidx
  have hinvI : applyPerm perm2 (applyPerm perm idx) = idx :=
    applyPerm_applyPerm_inv hp hp2 hinv hdim
  have hoffC : offB
      (⟨perm2, 1, 0, false, id,
        run ⟨perm, 1, 0, false, id, A, outerA, outerB⟩ sizeA B0,
        outerB, outerC⟩ : Config α) (applyPerm perm idx) =
      offsetIn idx outerC := by
    show offsetIn (applyPerm perm2 (applyPerm perm idx)) outerC =
      offsetIn idx outerC
    rw [hinvI]
  rw [← hoffC, run_written hv2 hj B1]
  have hval2 : aval
      (⟨perm2, 1, 0, false, id,
        run ⟨perm, 1, 0, false, id, A, outerA, outerB⟩ sizeA B0,
        outerB, outerC⟩ : Config α) (applyPerm perm idx) =
      run (⟨perm, 1, 0, false, id, A, outerA, outerB⟩ : Config α) sizeA B0
        (offB (⟨perm, 1, 0, false, id, A, outerA, outerB⟩ : Config α) idx) := rfl
  rw [axpby_beta0, one_mul, hval2, run_written hv1 hidx B0, axpby_beta0, one_mul]
  rfl

theorem claim_C3_witness :
    ValidPerm [1, 0] 2 ∧
    run (⟨[1, 0], 1, 0, false, id,
        run (⟨[1, 0], 1, 0, false, id, fun o => (o : ℤ) + 1, [2, 3], [3, 2]⟩ :
          Config ℤ) [2, 3] (fun _ => 0), [3, 2], [2, 3]⟩ : Config ℤ)
      (applyPerm [1, 0] [2, 3]) (fun _ => 0) (offsetIn [1, 2] [2, 3]) =
      (fun o => (o : ℤ) + 1) (offsetIn [1, 2] [2, 3]) := by
  refine ⟨by decide, ?_⟩
  exact claim_C3 (by decide) (by decide) (by decide) (by decide) (by decide)
    (by decide) _ _ _ (by decide : List.Forall₂ (· < ·) [1, 2] [2, 3])

/-- C4: the identity permutation with alpha 1 and beta 0 on a dense tensor
(outer sizes equal to the sizes) copies the input exactly: every linear
position of the logical buffer holds precisely the corresponding input
element, with no arithmetic applied (in this exact model, equality). -/
theorem claim_C4 {α : Type} [CommRing α] [DecidableEq α] {sizeA : List Nat}
    (hpos : ∀ n ∈ sizeA, 0 < n) (A B0 : Nat → α) {o : Nat}
    (ho : o < sizeA.prod) :
    run (⟨List.range sizeA.length, 1, 0, false, id, A, sizeA, sizeA⟩ :
      Config α) sizeA B0 o = A o := by
  obtain ⟨hf, hoff⟩ := decompose_valid hpos ho
  have hvp : ValidPerm (List.range sizeA.length) sizeA.length :=
    ⟨by simp, List.nodup_range _, fun p hp => List.mem_range.mp hp⟩
  have hrefl : List.Forall₂ (· ≤ ·) sizeA sizeA :=
    List.forall₂_same.mpr fun x _ => le_refl x
  have hv : ValidCall
      (⟨List.range sizeA.length, 1, 0, false, id, A, sizeA, sizeA⟩ : Config α)
      sizeA := by
    refine ⟨hvp, hrefl, ?_⟩
    show List.Forall₂ (· ≤ ·) (applyPerm (List.range sizeA.length) sizeA) sizeA
    rw [applyPerm_range rfl]
    exact hrefl
  have hoffB : offB
      (⟨List.range sizeA.length, 1, 0, false, id, A, sizeA, sizeA⟩ : Config α)
      (decompose o sizeA) = o := by
    show offsetIn (applyPerm (List.range sizeA.length) (decompose o sizeA))
      sizeA = o
    rw [applyPerm_range hf.length_eq, hoff]
  rw [← hoffB, run_written hv hf B0, axpby_beta0, one_mul]
  show A (offsetIn (decompose o sizeA) sizeA) = A (offB _ (decompose o sizeA))
  rw [hoffB, hoff]

theorem claim_C4_witness :
    (∀ n ∈ [2, 2], 0 < n) ∧
    run (⟨List.range ([2, 2] : List Nat).length, 1, 0, false, id,
        fun o => (o : ℤ) + 1, [2, 2], [2, 2]⟩ : Config ℤ) [2, 2]
      (fun _ => 0) 3 = (fun o => (o : ℤ) + 1) 3 :=
  ⟨by decide, claim_C4 (by decide) _ _ (by decide)⟩

/-- C5: for every valid call and every thread count `T ≥ 1` — whether or not
`T` divides the split axis evenly — the multi-threaded execution, with its
per-thread sub-ranges completed in any order, produces output identical to
the single-threaded execution. -/
theorem claim_C5 {α : Type} [CommRing α] [DecidableEq α] {cfg : Config α}
    {sizeA : List Nat} (hv : ValidCall cfg sizeA) (T : Nat) (hT : 0 < T)
    {ls : List (List (List Nat))} (hls : ls.Perm (threadChunks sizeA T))
    (B0 : Nat → α) (o : Nat) :
    execChunks cfg ls B0 o = runThreads cfg sizeA 1 B0 o := by
  rw [execChunks_perm_eq_run hv hT hls, runThreads_eq_run hv Nat.one_pos]

theorem claim_C5_witness :
    ValidCall cfgSmall [2, 3] ∧
    execChunks cfgSmall (threadChunks [2, 3] 2).reverse (fun _ => (0 : ℤ)) 3 =
      runThreads cfgSmall [2, 3] 1 (fun _ => (0 : ℤ)) 3 := by
  have hv : ValidCall cfgSmall [2, 3] := ⟨by decide, by decide, by decide⟩
  exact ⟨hv, claim_C5 hv 2 (by decide) (List.reverse_perm _) _ 3⟩

/-- C6: validation fails with `InvalidShape` exactly when a size or outer
size is non-positive or an outer size is below the matching size, fails with
`InvalidPermutation` exactly when the sequence has the wrong length, a
repeated index or an out-of-range index, and every validation failure of the
entry point leaves the destination buffer untouched. -/
theorem claim_C6 {α : Type} [CommRing α] [DecidableEq α] :
    (∀ size outerSize : List Int, size.length = outerSize.length →
      (ShapeDescriptor.make size outerSize = .error .invalidShape ↔
        (∃ s ∈ size, s ≤ 0) ∨ (∃ s ∈ outerSize, s ≤ 0) ∨
          ∃ k, k < size.length ∧ outerSize.getD k 0 < size.getD k 0)) ∧
    (∀ (dim : Nat) (perm : List Int),
      Permutation.make dim perm = .error .invalidPermutation ↔
        perm.length ≠ dim ∨ ¬perm.Nodup ∨
          ∃ p ∈ perm, p < 0 ∨ (dim : Int) ≤ p) ∧
    (∀ (perm : List Int) (dim : Nat) (alpha : α) (conjA : Bool)
      (conj : α → α) (A : Nat → α) (sizeA : List Int)
      (outerSizeA : Option (List Int)) (beta : α) (B : Nat → α)
      (outerSizeB : Option (List Int)) (numThreads : Nat) (useRowMajor : Bool),
      (tensorTranspose perm dim alpha conjA conj A sizeA outerSizeA beta B
        outerSizeB numThreads useRowMajor).1 ≠ .ok () →
      (tensorTranspose perm dim alpha conjA conj A sizeA outerSizeA beta B
        outerSizeB numThreads useRowMajor).2 = B) :=
  ⟨fun _ _ h => shapeDescriptor_make_error_iff h,
   permutation_make_error_iff,
   tensorTranspose_error_untouched⟩

theorem claim_C6_witness :
    ShapeDescriptor.make [(-1 : Int)] [1] = .error .invalidShape ∧
    Permutation.make 2 [0, 0] = .error .invalidPermutation ∧
    (tensorTranspose [(0 : Int)] 1 (1 : ℤ) false id (fun _ => 0) [-1]
      none 0 (fun _ => 7) none 1 false).2 = fun _ => (7 : ℤ) := by
  refine ⟨?_, ?_, ?_⟩
  · exact ((@claim_C6 ℤ _ _).1 [-1] [1] (by decide)).mpr
      (Or.inl ⟨-1, by decide, by decide⟩)
  · exact ((@claim_C6 ℤ _ _).2.1 2 [0, 0]).mpr
      (Or.inr (Or.inl (by decide)))
  · refine (@claim_C6 ℤ _ _).2.2 [0] 1 1 false id _ [-1] none 0 _ none 1
      false ?_
    intro h
    exact Except.noConfusion
      (show (Except.error TTError.invalidShape : Except TTError Unit) =
        .ok () from h)

/-- C7: frame property of a valid call — destination positions that are not
the image of a valid logical index keep their prior value; the output
depends on A only through its elements inside the logical region; and every
write lands at an offset addressed through B's outer-size strides at an
index bounded by the permuted logical sizes. -/
theorem claim_C7 {α : Type} [CommRing α] [DecidableEq α] {cfg : Config α}
    {sizeA : List Nat} (hv : ValidCall cfg sizeA) (T : Nat) (hT : 0 < T)
    (B0 : Nat → α) :
    (∀ o, (∀ idx, List.Forall₂ (· < ·) idx sizeA → offB cfg idx ≠ o) →
      runThreads cfg sizeA T B0 o = B0 o) ∧
    (∀ A' : Nat → α,
      (∀ idx, List.Forall₂ (· < ·) idx sizeA →
        cfg.A (offsetIn idx cfg.outerSizeA) = A' (offsetIn idx cfg.outerSizeA)) →
      ∀ o, runThreads cfg sizeA T B0 o =
        runThreads (⟨cfg.perm, cfg.alpha, cfg.beta, cfg.conjA, cfg.conj, A',
          cfg.outerSizeA, cfg.outerSizeB⟩ : Config α) sizeA T B0 o) ∧
    (∀ idx, List.Forall₂ (· < ·) idx sizeA →
      List.Forall₂ (· < ·) (applyPerm cfg.perm idx) (applyPerm cfg.perm sizeA) ∧
      offB cfg idx = offsetIn (applyPerm cfg.perm idx) cfg.outerSizeB) := by
  refine ⟨?_, ?_, ?_⟩
  · intro o h
    rw [runThreads_eq_run hv hT]
    exact run_untouched h B0
  · intro A' hA' o
    have hv' : ValidCall
        (⟨cfg.perm, cfg.alpha, cfg.beta, cfg.conjA, cfg.conj, A',
          cfg.outerSizeA, cfg.outerSizeB⟩ : Config α) sizeA :=
      ⟨hv.perm_valid, hv.outerA_ge, hv.outerB_ge⟩
    rw [runThreads_eq_run hv hT, runThreads_eq_run hv' hT, run, run]
    refine congrFun (@execOn_congr_aval α _ _ cfg
      ⟨cfg.perm, cfg.alpha, cfg.beta, cfg.conjA, cfg.conj, A',
        cfg.outerSizeA, cfg.outerSizeB⟩ rfl rfl rfl rfl (allIdx sizeA)
      (fun i hi => ?_) B0) o
    show conjIf cfg.conjA cfg.conj (cfg.A (offsetIn i cfg.outerSizeA)) =
      conjIf cfg.conjA cfg.conj (A' (offsetIn i cfg.outerSizeA))
    rw [hA' i (mem_allIdx.mp hi)]
  · intro idx hidx
    refine ⟨applyPerm_forall₂
      (fun p hp => hidx.length_eq ▸ hv.perm_valid.2.2 p hp) hidx, rfl⟩

theorem claim_C7_witness :
    ValidCall cfgSmall [2, 3] ∧
    (List.Forall₂ (· < ·) (applyPerm cfgSmall.perm [1, 2])
        (applyPerm cfgSmall.perm [2, 3]) ∧
      offB cfgSmall [1, 2] =
        offsetIn (applyPerm cfgSmall.perm [1, 2]) cfgSmall.outerSizeB) := by
  have hv : ValidCall cfgSmall [2, 3] := ⟨by decide, by decide, by decide⟩
  exact ⟨hv, (claim_C7 hv 1 (by decide) (fun _ => (0 : ℤ))).2.2 [1, 2]
    (by decide)⟩

/-- C8 counterexample: Auto-Tune Measure's timed executions run on the
caller's real destination buffer (spec §4.5), so with `beta = 1` and two
timed candidates the rank-1 accumulating call `B += A` executes twice,
leaving `B[0] = 2`, while the direct heuristic path leaves `B[0] = 1`. -/
theorem claim_C8_cex :
    (tensorTransposeAutoTuneMeasure cfgAccum [1] [1, 2] (fun _ => 0)
      (fun _ => 0)).2 0 ≠
      runThreads cfgAccum [1] 1 (fun _ => (0 : ℤ)) 0 := by decide

/-- C8 (amended): with `beta = 0` — the destination-independent case — the
final contents of B after Auto-Tune Measure are numerically identical to the
direct heuristic path for the same inputs, for every candidate set and cost
measurement; with `beta ≠ 0` the timed executions accumulate into B and may
differ (see the counterexample). -/
theorem claim_C8_amended {α : Type} [CommRing α] [DecidableEq α]
    {cfg : Config α} {sizeA : List Nat} (hv : ValidCall cfg sizeA)
    (hbeta : cfg.beta = 0) {cands : List Nat} (hne : cands ≠ [])
    (hpos : ∀ T ∈ cands, 0 < T) (cost : Nat → Nat) (T : Nat) (hT : 0 < T)
    (B0 : Nat → α) (o : Nat) :
    (tensorTransposeAutoTuneMeasure cfg sizeA cands cost B0).2 o =
      runThreads cfg sizeA T B0 o := by
  show autoTuneRuns cfg sizeA cands B0 o = _
  rw [autoTuneRuns_beta0 hv hbeta hne hpos B0 o, runThreads_eq_run hv hT]

theorem claim_C8_witness :
    ValidCall cfgSmall [2, 3] ∧
    (tensorTransposeAutoTuneMeasure cfgSmall [2, 3] [1, 2] (fun _ => 0)
      (fun _ => 0)).2 5 = runThreads cfgSmall [2, 3] 1 (fun _ => (0 : ℤ)) 5 := by
  have hv : ValidCall cfgSmall [2, 3] := ⟨by decide, by decide, by decide⟩
  exact ⟨hv, claim_C8_amended hv rfl (by decide) (by decide) (fun _ => 0) 1
    (by decide) _ 5⟩

/-- C9: every one of the twelve entry points declared in `chptt.h` (direct,
Auto-Tune Measure and Auto-Tune Patient, for all four numeric types) has
return type `void`, so no error value or success indication can be returned
to the caller through the interface itself. -/
theorem claim_C9 : ∀ f ∈ chpttDecls, f.ret = CType.void := by decide

theorem claim_C9_witness :
    (⟨"sTensorTranspose", CType.void, realParams CType.float⟩ : CFun).ret =
      CType.void :=
  claim_C9 _ (by decide)

/-- C10: no entry point of `chptt.h` accepts logical sizes for the output
tensor — every declaration has a `sizeA` parameter, no `sizeB` parameter,
and an `outerSizeB` parameter — and in the modelled entry point B's logical
shape is the permutation applied to `sizeA`, with a `NULL` `outerSizeB`
meaning exactly the permuted logical sizes. -/
theorem claim_C10 {α : Type} [CommRing α] [DecidableEq α] :
    (∀ f ∈ chpttDecls,
      (∃ p ∈ f.params, p.name = "sizeA") ∧
      (∀ p ∈ f.params, p.name ≠ "sizeB") ∧
      ∃ p ∈ f.params, p.name = "outerSizeB") ∧
    (∀ (perm : List Int) (dim : Nat) (alpha : α) (conjA : Bool)
      (conj : α → α) (A : Nat → α) (sizeA : List Int)
      (outerSizeA : Option (List Int)) (beta : α) (B : Nat → α)
      (numThreads : Nat) (useRowMajor : Bool),
      tensorTranspose perm dim alpha conjA conj A sizeA outerSizeA beta B
        none numThreads useRowMajor =
      tensorTranspose perm dim alpha conjA conj A sizeA outerSizeA beta B
        (some (applyPermInt perm sizeA)) numThreads useRowMajor) := by
  refine ⟨by decide, ?_⟩
  intro perm dim alpha conjA conj A sizeA outerSizeA beta B numThreads useRowMajor
  rfl

theorem claim_C10_witness :
    tensorTranspose [(0 : Int)] 1 (1 : ℤ) false id (fun _ => 0) [1] none 0
        (fun _ => 0) none 1 false =
      tensorTranspose [(0 : Int)] 1 (1 : ℤ) false id (fun _ => 0) [1] none 0
        (fun _ => 0) (some (applyPermInt [0] [1])) 1 false :=
  (@claim_C10 ℤ _ _).2 [0] 1 1 false id _ [1] none 0 _ 1 false

end HPTT
